import Mathlib

/-!
Shallow embedding of the kvile dual-dialect HTTP-file parser core
(src-tauri/src/parser/{types,detect,jetbrains,vscode}.rs) and proofs about it.

Lines are modelled as lists of characters (`List Char`), documents as `String`.
Rust regular expressions are translated to explicit character scanners; each
scanner's doc comment names the regex it embeds.  Rust `HashMap` is modelled as
an association list with replace-on-insert (`insertA`), and observations are
stated through `lookupA` so that iteration order is irrelevant.  Character
classes (`\w`, `\s`, `\d`) are modelled over their ASCII meaning.
-/

namespace Kvile

/-! ## Character classes and basic string utilities -/

/-- Whitespace, ASCII part of Rust `char::is_whitespace` / regex `\s`. -/
def isWs (c : Char) : Bool :=
  c = ' ' || c = '\t' || c = '\n' || c = '\r' || c = '\x0b' || c = '\x0c'

/-- Regex class `[\w-]` (ASCII): word character or hyphen. -/
def isWordDash (c : Char) : Bool :=
  c.isAlphanum || c = '_' || c = '-'

/-- Regex class `[\w.-]` (ASCII): variable-identifier character. -/
def isVarChar (c : Char) : Bool :=
  c.isAlphanum || c = '_' || c = '.' || c = '-'

/-- Regex class `[\d.]`: digit or dot (for `HTTP/[\d.]+`). -/
def isDigitDot (c : Char) : Bool :=
  c.isDigit || c = '.'

/-- Does the list start with the given pattern? -/
def listStartsWith : List Char → List Char → Bool
  | _, [] => true
  | [], _ :: _ => false
  | c :: cs, p :: ps => c = p && listStartsWith cs ps

/-- Rust `str::trim` (ASCII whitespace model). -/
def rustTrim (cs : List Char) : List Char :=
  ((cs.dropWhile isWs).reverse.dropWhile isWs).reverse

/-- Split a character list at `'\n'`, keeping empty chunks (like `str::split`). -/
def splitNL : List Char → List (List Char)
  | [] => [[]]
  | c :: cs =>
    if c = '\n' then [] :: splitNL cs
    else
      match splitNL cs with
      | [] => [[c]]
      | h :: t => (c :: h) :: t

/-- Drop one trailing `'\r'` (the `\r\n` half of a consumed line ending). -/
def stripCR (l : List Char) : List Char :=
  if l.getLast? = some '\r' then l.dropLast else l

/-- Rust `str::lines`: split on `'\n'` or `"\r\n"`, final line ending optional.
A trailing `'\r'` not followed by `'\n'` is kept, exactly as in Rust. -/
def linesOf (s : String) : List (List Char) :=
  let parts := splitNL s.data
  match parts.getLast? with
  | none => []
  | some last => (parts.dropLast.map stripCR) ++ (if last = [] then [] else [last])

/-- Join lines with `'\n'` (Rust `Vec::join("\n")`). -/
def intercalateNL : List (List Char) → List Char
  | [] => []
  | [l] => l
  | l :: ls => l ++ '\n' :: intercalateNL ls

/-- Rust `str::trim_end_matches("%\x7d")` on a reversed list. -/
def stripPCrev : List Char → List Char
  | '}' :: '%' :: r => stripPCrev r
  | r => r

/-- Remove every trailing occurrence of `"%\x7d"`. -/
def stripPCAll (t : List Char) : List Char :=
  (stripPCrev t.reverse).reverse

/-! ## Association lists standing in for `HashMap<String, String>` -/

/-- Lookup in an association list (first match). -/
def lookupA (k : String) : List (String × String) → Option String
  | [] => none
  | (k', v) :: t => if k' = k then some v else lookupA k t

/-- Rust `HashMap::insert`: replace the binding for `k` if present, else add it. -/
def insertA (k v : String) : List (String × String) → List (String × String)
  | [] => [(k, v)]
  | (k', v') :: t => if k' = k then (k, v) :: t else (k', v') :: insertA k v t

/-- Copy every binding of `src` into `dst` (the `for (k, v) in &file_variables`
insertion loop). -/
def insertAll (src dst : List (String × String)) : List (String × String) :=
  src.foldl (fun m kv => insertA kv.1 kv.2 m) dst

/-! ## Data model (`types.rs`) -/

/-- Structure `ParsedRequest` from `types.rs`; defaults are those of `ParsedRequest::new`. -/
structure ParsedRequest where
  name : Option String := none
  method : String := "GET"
  url : String := ""
  http_version : Option String := none
  headers : List (String × String) := []
  body : Option String := none
  line_number : Nat := 0
  «variables» : List (String × String) := []
  metadata : List (String × String) := []
  pre_script : Option String := none
  post_script : Option String := none
deriving DecidableEq, Repr

/-- Rust `ParsedRequest::new()` followed by setting `line_number`. -/
def newRequest (ln : Nat) : ParsedRequest := { line_number := ln }

/-- Enum `HttpFileFormat` from `types.rs`. -/
inductive HttpFileFormat where
  | JetBrains
  | VsCode
  | Unknown
deriving DecidableEq, Repr

/-- Structure `ParseError` from `types.rs`. -/
structure ParseError where
  message : String
  line : Option Nat
deriving DecidableEq, Repr

/-! ## Line classifiers (the regexes of `jetbrains.rs` / `vscode.rs`) -/

/-- Regex `^###\s*(.*)$` applied to a trimmed line: separator test. -/
def isSep (t : List Char) : Bool :=
  listStartsWith t ['#', '#', '#']

/-- Separator name: capture of `^###\s*(.*)$`, then `.trim()` as in the source. -/
def sepName (t : List Char) : List Char :=
  rustTrim (t.drop 3)

/-- Regex `^(?:#|//)`: comment test. -/
def isComment (t : List Char) : Bool :=
  listStartsWith t ['#'] || listStartsWith t ['/', '/']

/-- Regex `^<\s*\x7b%`: pre-request script opener. -/
def preOpen (t : List Char) : Bool :=
  match t with
  | '<' :: r => listStartsWith (r.dropWhile isWs) ['{', '%']
  | _ => false

/-- Regex `^>\s*\x7b%`: post-request script opener. -/
def postOpen (t : List Char) : Bool :=
  match t with
  | '>' :: r => listStartsWith (r.dropWhile isWs) ['{', '%']
  | _ => false

/-- Regex `^@([\w-]+)\s*=\s*(.*)$`: file-level variable definition. -/
def matchVarDef (t : List Char) : Option (String × String) :=
  match t with
  | '@' :: rest =>
    let nm := rest.takeWhile isWordDash
    if nm = [] then none
    else
      match (rest.dropWhile isWordDash).dropWhile isWs with
      | '=' :: r3 => some (⟨nm⟩, ⟨r3.dropWhile isWs⟩)
      | _ => none
  | _ => none

/-- Regex `^#\s*@([\w-]+)\s+(.*)$`: metadata annotation. -/
def matchMetadata (t : List Char) : Option (String × String) :=
  match t with
  | '#' :: rest =>
    match rest.dropWhile isWs with
    | '@' :: r2 =>
      let nm := r2.takeWhile isWordDash
      if nm = [] then none
      else
        match r2.dropWhile isWordDash with
        | c :: r3 => if isWs c then some (⟨nm⟩, ⟨(c :: r3).dropWhile isWs⟩) else none
        | [] => none
    | _ => none
  | _ => none

/-- Regex `^([\w-]+):\s*(.*)$`: header line. -/
def matchHeader (t : List Char) : Option (String × String) :=
  let nm := t.takeWhile isWordDash
  if nm = [] then none
  else
    match t.dropWhile isWordDash with
    | ':' :: r => some (⟨nm⟩, ⟨r.dropWhile isWs⟩)
    | _ => none

/-- The nine HTTP verbs, in the alternation order of the method regex. -/
def httpVerbs : List String :=
  ["GET", "POST", "PUT", "DELETE", "PATCH", "HEAD", "OPTIONS", "TRACE", "CONNECT"]

/-- Suffix test for `(?:\s+(HTTP/[\d.]+))?$`: whole remainder is whitespace,
then `HTTP/`, then one or more digits/dots. Returns the captured version. -/
def versionTail (cs : List Char) : Option (List Char) :=
  if cs.takeWhile isWs = [] then none
  else
    let r := cs.dropWhile isWs
    if listStartsWith r ['H', 'T', 'T', 'P', '/'] then
      if (r.drop 5).takeWhile isDigitDot = [] then none
      else if (r.drop 5).dropWhile isDigitDot = [] then some r else none
    else none

/-- Lazy `(.+?)` followed by the optional version group: grow the URL one
character at a time, stopping at the first point where the rest of the line is
a version suffix (or at end of line). `acc` is the reversed URL so far. -/
def findUV (acc : List Char) : List Char → List Char × Option (List Char)
  | [] => (acc.reverse, none)
  | c :: rest =>
    match versionTail (c :: rest) with
    | some ver => (acc.reverse, some ver)
    | none => findUV (c :: acc) rest

/-- Regex `^(GET|POST|PUT|DELETE|PATCH|HEAD|OPTIONS|TRACE|CONNECT)\s+(.+?)(?:\s+(HTTP/[\d.]+))?$`. -/
def matchMethod (t : List Char) : Option (String × String × Option String) :=
  match httpVerbs.find? (fun v =>
      listStartsWith t v.data &&
        match t.drop v.length with
        | c :: _ => isWs c
        | [] => false) with
  | none => none
  | some v =>
    match (t.drop v.length).dropWhile isWs with
    | [] => none
    | c :: rs =>
      let (u, ver) := findUV [c] rs
      some (v, ⟨u⟩, ver.map (fun x => ⟨x⟩))

/-- Bare URL line test: starts with `http://`, `https://` or `/`. -/
def isBareUrl (t : List Char) : Bool :=
  listStartsWith t "http://".data || listStartsWith t "https://".data ||
    listStartsWith t ['/']

/-! ## Script-block extraction (`extract_script_block` in `jetbrains.rs`)

The Rust function receives the whole line slice and the opener's index and
scans from `start_idx + 1`; here it receives the lines after the opener and
returns the captured script lines together with the lines after the closing
one.  `none` is returned when a separator or the end of input is reached
before a closing `%\x7d`. -/

/-- Lines of the captured script (middle lines raw; a closing line's leading
content trimmed and stripped of its trailing `%\x7d`), and the remaining input. -/
def extractScript : List (List Char) → Option (List (List Char) × List (List Char))
  | [] => none
  | l :: ls =>
    let t := rustTrim l
    if listStartsWith t.reverse ['}', '%'] then
      let content := rustTrim (stripPCAll t)
      some ((if content = [] then [] else [content]), ls)
    else if isSep t then none
    else
      match extractScript ls with
      | some (ss, rest) => some (l :: ss, rest)
      | none => none

/-! ## Parser state

Both dialect parsers in the source keep the same local mutable state:
the output vector, the in-progress request, the body-capture flag, the body
buffer, the file-level variable table, and the current 1-based line number. -/

structure PState where
  requests : List ParsedRequest := []
  current : Option ParsedRequest := none
  in_body : Bool := false
  body_lines : List (List Char) := []
  file_variables : List (String × String) := []
  lineNo : Nat := 1
deriving Repr

/-- Initial parser state (all buffers empty, at line 1). -/
def initState : PState := {}

/-! ## JetBrains parser (`parse_jetbrains`) -/

/-- Finalization of the current request (the duplicated blocks at a separator
and after the loop in `parse_jetbrains`): attach the body when in body mode
with a non-empty buffer, copy the file-level variables in, and push the
request unless its URL is empty. -/
def jbFinalize (st : PState) : List ParsedRequest :=
  match st.current with
  | none => st.requests
  | some req =>
    let req :=
      if st.in_body ∧ st.body_lines ≠ [] then
        { req with body := some ⟨rustTrim (intercalateNL st.body_lines)⟩ }
      else req
    let req := { req with «variables» := insertAll st.file_variables req.«variables» }
    if req.url ≠ "" then st.requests ++ [req] else st.requests

/-- One non-script line of `parse_jetbrains`, in the source's branch order:
separator, leading blank skip, implicit request start, body capture, metadata,
comment, variable definition, method line, header, blank line starting the
body, bare URL, and the silent fallthrough. -/
def jbStep (st : PState) (l : List Char) : PState :=
  let t := rustTrim l
  if isSep t then
    { requests := jbFinalize st
      current := some { newRequest st.lineNo with
        name := if sepName t = [] then none else some ⟨sepName t⟩ }
      in_body := false
      body_lines := []
      file_variables := st.file_variables
      lineNo := st.lineNo + 1 }
  else if st.current = none ∧ t = [] then
    { st with lineNo := st.lineNo + 1 }
  else
    let cur := st.current.getD (newRequest st.lineNo)
    if st.in_body then
      { st with current := some cur, body_lines := st.body_lines ++ [l],
                lineNo := st.lineNo + 1 }
    else
      match matchMetadata t with
      | some (k, v) =>
        { st with current := some { cur with metadata := insertA k v cur.metadata },
                  lineNo := st.lineNo + 1 }
      | none =>
        if isComment t then
          { st with current := some cur, lineNo := st.lineNo + 1 }
        else
          match matchVarDef t with
          | some (n, v) =>
            { st with current := some cur,
                      file_variables := insertA n v st.file_variables,
                      lineNo := st.lineNo + 1 }
          | none =>
            match matchMethod t with
            | some (m, u, ver) =>
              { st with current := some { cur with method := m, url := u, http_version := ver },
                        lineNo := st.lineNo + 1 }
            | none =>
              match matchHeader t with
              | some (k, v) =>
                { st with current := some { cur with headers := insertA k v cur.headers },
                          lineNo := st.lineNo + 1 }
              | none =>
                if t = [] ∧ cur.url ≠ "" then
                  { st with current := some cur, in_body := true, lineNo := st.lineNo + 1 }
                else if cur.url = "" ∧ isBareUrl t then
                  { st with current := some { cur with url := ⟨t⟩ }, lineNo := st.lineNo + 1 }
                else
                  { st with current := some cur, lineNo := st.lineNo + 1 }

/-- Attach a successfully extracted pre-request script (creates the request
if none is active, at the opener's line number). -/
def jbAttachPre (st : PState) (ss : List (List Char)) : PState :=
  let c := st.current.getD (newRequest st.lineNo)
  { st with current := some { c with pre_script := some ⟨intercalateNL ss⟩ } }

/-- Attach a successfully extracted post-request script (only if a request is
active) and end body capture. -/
def jbAttachPost (st : PState) (ss : List (List Char)) : PState :=
  { st with
      current := st.current.map (fun c => { c with post_script := some ⟨intercalateNL ss⟩ }),
      in_body := false }

/-- The main line loop of `parse_jetbrains`.  The fuel argument only bounds the
recursion depth; one unit is spent per loop iteration and every iteration
consumes at least one line, so `fuel = number of lines` never runs out. -/
def jbProcF : Nat → PState → List (List Char) → PState
  | _, st, [] => st
  | 0, st, _ :: _ => st
  | fuel + 1, st, l :: ls =>
    let t := rustTrim l
    if preOpen t then
      match extractScript ls with
      | some (ss, rest) =>
        jbProcF fuel { jbAttachPre st ss with
          lineNo := st.lineNo + (1 + (ls.length - rest.length)) } rest
      | none => jbProcF fuel (jbStep st l) ls
    else if postOpen t then
      match extractScript ls with
      | some (ss, rest) =>
        jbProcF fuel { jbAttachPost st ss with
          lineNo := st.lineNo + (1 + (ls.length - rest.length)) } rest
      | none => jbProcF fuel (jbStep st l) ls
    else
      jbProcF fuel (jbStep st l) ls

/-- Function `parse_jetbrains` from `jetbrains.rs`: run the loop over the document's
lines, finalize the last request, and return `Ok`. -/
def parse_jetbrains (content : String) : Except ParseError (List ParsedRequest) :=
  let L := linesOf content
  .ok (jbFinalize (jbProcF L.length initState L))

/-- The request list produced by `parse_jetbrains`. -/
def jbRequests (content : String) : List ParsedRequest :=
  let L := linesOf content
  jbFinalize (jbProcF L.length initState L)

/-! ## VS Code parser (`parse_vscode`) -/

/-- Finalization in `parse_vscode`: attach the body as in the JetBrains parser,
but assign (not merge) the file-level variable table, inside the URL check. -/
def vsFinalize (st : PState) : List ParsedRequest :=
  match st.current with
  | none => st.requests
  | some req =>
    let req :=
      if st.in_body ∧ st.body_lines ≠ [] then
        { req with body := some ⟨rustTrim (intercalateNL st.body_lines)⟩ }
      else req
    if req.url ≠ "" then
      st.requests ++ [{ req with «variables» := st.file_variables }]
    else st.requests

/-- One line of `parse_vscode`, in the source's branch order: variable
definition first (before anything else, body capture included), separator,
leading blank and comment skips, implicit request start, body capture,
comment, method line, header, blank line starting the body, bare URL,
silent fallthrough. -/
def vsStep (st : PState) (l : List Char) : PState :=
  let t := rustTrim l
  match matchVarDef t with
  | some (n, v) =>
    { st with file_variables := insertA n v st.file_variables, lineNo := st.lineNo + 1 }
  | none =>
    if isSep t then
      { requests := vsFinalize st
        current := some { newRequest st.lineNo with
          name := if sepName t = [] then none else some ⟨sepName t⟩ }
        in_body := false
        body_lines := []
        file_variables := st.file_variables
        lineNo := st.lineNo + 1 }
    else if st.current = none ∧ t = [] then
      { st with lineNo := st.lineNo + 1 }
    else if st.current = none ∧ isComment t then
      { st with lineNo := st.lineNo + 1 }
    else
      let cur := st.current.getD (newRequest st.lineNo)
      if st.in_body then
        { st with current := some cur, body_lines := st.body_lines ++ [l],
                  lineNo := st.lineNo + 1 }
      else if isComment t then
        { st with current := some cur, lineNo := st.lineNo + 1 }
      else
        match matchMethod t with
        | some (m, u, ver) =>
          { st with current := some { cur with method := m, url := u, http_version := ver },
                    lineNo := st.lineNo + 1 }
        | none =>
          match matchHeader t with
          | some (k, v) =>
            { st with current := some { cur with headers := insertA k v cur.headers },
                      lineNo := st.lineNo + 1 }
          | none =>
            if t = [] ∧ cur.url ≠ "" then
              { st with current := some cur, in_body := true, lineNo := st.lineNo + 1 }
            else if cur.url = "" ∧ isBareUrl t then
              { st with current := some { cur with url := ⟨t⟩ }, lineNo := st.lineNo + 1 }
            else
              { st with current := some cur, lineNo := st.lineNo + 1 }

/-- Function `parse_vscode` from `vscode.rs`: fold over the lines, finalize, return `Ok`. -/
def parse_vscode (content : String) : Except ParseError (List ParsedRequest) :=
  .ok (vsFinalize ((linesOf content).foldl vsStep initState))

/-- The request list produced by `parse_vscode`. -/
def vsRequests (content : String) : List ParsedRequest :=
  vsFinalize ((linesOf content).foldl vsStep initState)

/-! ## Format detection and dispatch (`detect.rs`) -/

/-- A trimmed line starting with the literal `< \x7b%` or `> \x7b%`
(the script test in `detect_format`; note the single mandatory space). -/
def detectScriptLine (l : List Char) : Bool :=
  listStartsWith (rustTrim l) ['<', ' ', '{', '%'] ||
    listStartsWith (rustTrim l) ['>', ' ', '{', '%']

/-- Regex `^@[\w-]+\s*=` on the trimmed line (the variable test in
`detect_format`). -/
def detectVarLine (l : List Char) : Bool :=
  match rustTrim l with
  | '@' :: rest =>
    if rest.takeWhile isWordDash = [] then false
    else
      match (rest.dropWhile isWordDash).dropWhile isWs with
      | '=' :: _ => true
      | _ => false
  | _ => false

/-- Function `detect_format` from `detect.rs`. -/
def detect_format (content : String) : HttpFileFormat :=
  if (linesOf content).any detectScriptLine then .JetBrains
  else if (linesOf content).any detectVarLine then .VsCode
  else .JetBrains

/-- Function `parse_http_content` from `detect.rs`. -/
def parse_http_content (content : String) : Except ParseError (List ParsedRequest) :=
  match detect_format content with
  | .VsCode => parse_vscode content
  | .JetBrains | .Unknown => parse_jetbrains content

/-! ## Variable substitution (`substitute_variables` in `detect.rs`)

Regex `\x7b\x7b([\w.-]+)\x7d\x7d` with `replace_all`: left-to-right,
non-overlapping, and replacement text is emitted, never rescanned. -/

/-- Leftmost-match attempt at the current position: two opening braces, a
non-empty maximal run of identifier characters, two closing braces.  Returns
the identifier and the remaining input. -/
def findPh : List Char → Option (List Char × List Char)
  | '{' :: '{' :: rest =>
    if rest.takeWhile isVarChar = [] then none
    else
      match rest.dropWhile isVarChar with
      | '}' :: '}' :: r3 => some (rest.takeWhile isVarChar, r3)
      | _ => none
  | _ => none

/-- The `replace_all` scan.  Fuel bounds the recursion depth; one unit per
emitted character or match, so `fuel = input length` never runs out. -/
def substChars : Nat → List (String × String) → List Char → List Char
  | _, _, [] => []
  | 0, _, cs => cs
  | fuel + 1, vars, c :: cs =>
    match findPh (c :: cs) with
    | some (nm, rest) =>
      (match lookupA ⟨nm⟩ vars with
       | some v => v.data
       | none => '{' :: '{' :: (nm ++ '}' :: '}' :: [])) ++ substChars fuel vars rest
    | none => c :: substChars fuel vars cs

/-- Function `substitute_variables` from `detect.rs`. -/
def substitute_variables (input : String) (vars : List (String × String)) : String :=
  ⟨substChars input.data.length vars input.data⟩

/-- The placeholder identifiers of a string, by the same scan. -/
def phNamesF : Nat → List Char → List String
  | _, [] => []
  | 0, _ => []
  | fuel + 1, c :: cs =>
    match findPh (c :: cs) with
    | some (nm, rest) => (⟨nm⟩ : String) :: phNamesF fuel rest
    | none => phNamesF fuel cs

/-- Placeholder identifiers occurring in a string. -/
def phNames (s : String) : List String :=
  phNamesF s.data.length s.data

/-- Token decomposition of the scan: a literal character, or a placeholder
with its identifier.  Computed without the variable table, which makes the
single-pass structure explicit. -/
def phTokensF : Nat → List Char → List (Sum Char String)
  | _, [] => []
  | 0, cs => cs.map Sum.inl
  | fuel + 1, c :: cs =>
    match findPh (c :: cs) with
    | some (nm, rest) => Sum.inr (⟨nm⟩ : String) :: phTokensF fuel rest
    | none => Sum.inl c :: phTokensF fuel cs

/-- Rendering of one token under a table: a resolved placeholder becomes its
raw value, an unresolved one the original placeholder text, a literal itself. -/
def renderTok (vars : List (String × String)) : Sum Char String → List Char
  | Sum.inl c => [c]
  | Sum.inr n =>
    match lookupA n vars with
    | some v => v.data
    | none => '{' :: '{' :: (n.data ++ '}' :: '}' :: [])

/-! ## General lemmas -/

theorem string_eta (s : String) : (⟨s.data⟩ : String) = s := rfl

theorem findPh_eq {cs nm rest} (h : findPh cs = some (nm, rest)) :
    cs = '{' :: '{' :: (nm ++ '}' :: '}' :: rest) ∧ nm ≠ [] := by
  unfold findPh at h
  split at h
  case _ r =>
    by_cases hnm : r.takeWhile isVarChar = []
    · rw [if_pos hnm] at h
      exact absurd h (by simp)
    · rw [if_neg hnm] at h
      split at h
      case _ r3 heq =>
        simp only [Option.some.injEq, Prod.mk.injEq] at h
        obtain ⟨h1, h2⟩ := h
        subst h1 h2
        refine ⟨?_, hnm⟩
        have hr : r.takeWhile isVarChar ++ r.dropWhile isVarChar = r :=
          List.takeWhile_append_dropWhile isVarChar r
        rw [heq] at hr
        rw [hr]
      case _ => exact absurd h (by simp)
  case _ => exact absurd h (by simp)

theorem findPh_len {cs nm rest} (h : findPh cs = some (nm, rest)) :
    rest.length + 5 ≤ cs.length := by
  obtain ⟨h1, h2⟩ := findPh_eq h
  subst h1
  have h3 : 1 ≤ nm.length := by
    cases nm with
    | nil => exact absurd rfl h2
    | cons a l => simp
  simp only [List.length_cons, List.length_append]
  omega

theorem substChars_no_hit :
    ∀ (fuel : Nat) (cs : List Char) (vars : List (String × String)),
      cs.length ≤ fuel →
      (∀ n, n ∈ phNamesF fuel cs → lookupA n vars = none) →
      substChars fuel vars cs = cs := by
  intro fuel
  induction fuel with
  | zero =>
    intro cs vars hlen _
    have h0 : cs = [] := List.eq_nil_of_length_eq_zero (Nat.le_zero.mp hlen)
    subst h0
    rfl
  | succ fuel ih =>
    intro cs vars hlen hnone
    cases cs with
    | nil => rfl
    | cons c cs' =>
      rw [substChars]
      cases hph : findPh (c :: cs') with
      | some p =>
        obtain ⟨nm, rest⟩ := p
        have heq := findPh_eq hph
        have hlen' : rest.length ≤ fuel := by
          have h5 := findPh_len hph
          simp only [List.length_cons] at h5 hlen
          omega
        have hn : lookupA ⟨nm⟩ vars = none := by
          apply hnone
          unfold phNamesF
          rw [hph]
          exact List.mem_cons_self _ _
        have hrest : substChars fuel vars rest = rest := by
          apply ih rest vars hlen'
          intro n hni
          apply hnone
          unfold phNamesF
          rw [hph]
          exact List.mem_cons_of_mem _ hni
        simp only [hn, hrest]
        conv_rhs => rw [heq.1]
        simp
      | none =>
        have hrest : substChars fuel vars cs' = cs' := by
          apply ih cs' vars (by simp only [List.length_cons] at hlen; omega)
          intro n hni
          apply hnone
          unfold phNamesF
          rw [hph]
          exact hni
        simp only [hrest]

theorem substChars_tokens :
    ∀ (fuel : Nat) (cs : List Char) (vars : List (String × String)),
      cs.length ≤ fuel →
      substChars fuel vars cs = ((phTokensF fuel cs).map (renderTok vars)).flatten := by
  intro fuel
  induction fuel with
  | zero =>
    intro cs vars hlen
    have h0 : cs = [] := List.eq_nil_of_length_eq_zero (Nat.le_zero.mp hlen)
    subst h0
    rfl
  | succ fuel ih =>
    intro cs vars hlen
    cases cs with
    | nil => rfl
    | cons c cs' =>
      rw [substChars, phTokensF]
      cases hph : findPh (c :: cs') with
      | some p =>
        obtain ⟨nm, rest⟩ := p
        have hlen' : rest.length ≤ fuel := by
          have h5 := findPh_len hph
          simp only [List.length_cons] at h5 hlen
          omega
        dsimp only
        rw [ih rest vars hlen']
        rfl
      | none =>
        dsimp only
        rw [ih cs' vars (by simp only [List.length_cons] at hlen; omega)]
        rfl

/-! ## Claims C4, C5, C6, C9 -/

/-- C4: `detect_format` is pure and total with first-match-wins rule order:
a document with a trimmed line starting with the script opener `< \x7b%` or
`> \x7b%` is JetBrains even when variable-definition lines appear; otherwise a
document with a trimmed `@name = value` line is VsCode; otherwise (empty
document included) JetBrains. -/
theorem c4_detect_format_rules :
    (∀ content : String,
      ((linesOf content).any detectScriptLine = true →
        detect_format content = HttpFileFormat.JetBrains) ∧
      ((linesOf content).any detectScriptLine = false →
        (linesOf content).any detectVarLine = true →
        detect_format content = HttpFileFormat.VsCode) ∧
      ((linesOf content).any detectScriptLine = false →
        (linesOf content).any detectVarLine = false →
        detect_format content = HttpFileFormat.JetBrains)) ∧
    detect_format "" = HttpFileFormat.JetBrains := by
  constructor
  · intro content
    refine ⟨fun h => ?_, fun h1 h2 => ?_, fun h1 h2 => ?_⟩ <;>
      simp [detect_format, *]
  · rfl

theorem c4_detect_format_rules_witness :
    detect_format "@a = 1\n< \x7b%\n%\x7d" = HttpFileFormat.JetBrains ∧
    detect_format "@a = 1\nGET /x" = HttpFileFormat.VsCode :=
  ⟨(c4_detect_format_rules.1 "@a = 1\n< \x7b%\n%\x7d").1 (by decide),
   (c4_detect_format_rules.1 "@a = 1\nGET /x").2.1 (by decide) (by decide)⟩

/-- C5: substitution never errors and handles each occurrence independently:
the output is the concatenation of the scan's tokens, where a placeholder
token whose identifier is absent from the table renders to the original
placeholder text verbatim (resolved ones to their raw values, literals to
themselves); a string all of whose placeholders are absent is returned
unchanged, and in particular substituting the empty table into a lone
unresolved placeholder is the identity. -/
theorem c5_unresolved_passthrough :
    (∀ (input : String) (vars : List (String × String)),
      substitute_variables input vars =
        ⟨((phTokensF input.data.length input.data).map (renderTok vars)).flatten⟩) ∧
    (∀ (vars : List (String × String)) (n : String), lookupA n vars = none →
      renderTok vars (Sum.inr n) = '{' :: '{' :: (n.data ++ '}' :: '}' :: [])) ∧
    (∀ (input : String) (vars : List (String × String)),
      (∀ n, n ∈ phNames input → lookupA n vars = none) →
      substitute_variables input vars = input) ∧
    substitute_variables "\x7b\x7bmissing\x7d\x7d" [] = "\x7b\x7bmissing\x7d\x7d" := by
  refine ⟨?_, ?_, ?_, rfl⟩
  · intro input vars
    unfold substitute_variables
    rw [substChars_tokens input.data.length input.data vars le_rfl]
  · intro vars n h
    simp [renderTok, h]
  · intro input vars h
    unfold substitute_variables
    rw [substChars_no_hit input.data.length input.data vars le_rfl h]

theorem c5_unresolved_passthrough_witness :
    substitute_variables "x \x7b\x7bmissing\x7d\x7d y" [("present", "v")] =
      "x \x7b\x7bmissing\x7d\x7d y" ∧
    renderTok [("present", "v")] (Sum.inr "missing") =
      '{' :: '{' :: ("missing".data ++ '}' :: '}' :: []) :=
  ⟨c5_unresolved_passthrough.2.2.1 "x \x7b\x7bmissing\x7d\x7d y" [("present", "v")]
      (by decide),
   c5_unresolved_passthrough.2.1 [("present", "v")] "missing" (by decide)⟩

/-- C6: substitution is single-pass: a string with no placeholder token is a
fixed point under any table; a resolved placeholder token renders to its raw
value with no rescanning of the replacement text, so a value that is itself a
placeholder is emitted verbatim and self-referential tables cannot loop (two
concrete instances included). -/
theorem c6_single_pass_fixed_point :
    (∀ (s : String) (vars : List (String × String)),
      phNames s = [] → substitute_variables s vars = s) ∧
    (∀ (vars : List (String × String)) (n v : String), lookupA n vars = some v →
      renderTok vars (Sum.inr n) = v.data) ∧
    substitute_variables "\x7b\x7ba\x7d\x7d" [("a", "\x7b\x7bb\x7d\x7d"), ("b", "X")] =
      "\x7b\x7bb\x7d\x7d" ∧
    substitute_variables "\x7b\x7ba\x7d\x7d" [("a", "\x7b\x7ba\x7d\x7d")] =
      "\x7b\x7ba\x7d\x7d" := by
  refine ⟨fun s vars h => ?_, fun vars n v h => by simp [renderTok, h], rfl, rfl⟩
  unfold substitute_variables
  rw [substChars_no_hit s.data.length s.data vars le_rfl (by rw [show phNamesF s.data.length s.data = phNames s from rfl, h]; simp)]

theorem c6_single_pass_fixed_point_witness :
    substitute_variables "http://resolved/api" [("a", "b")] = "http://resolved/api" ∧
    renderTok [("a", "\x7b\x7ba\x7d\x7d")] (Sum.inr "a") = "\x7b\x7ba\x7d\x7d".data :=
  ⟨c6_single_pass_fixed_point.1 "http://resolved/api" [("a", "b")] (by decide),
   c6_single_pass_fixed_point.2.1 [("a", "\x7b\x7ba\x7d\x7d")] "a" "\x7b\x7ba\x7d\x7d"
     (by decide)⟩

/-- C9: both dialect parsers and the dispatching entry point are total: they
return `Ok` on every input and never produce the `ParseError` variant. -/
theorem c9_parsers_total :
    ∀ content : String,
      (∃ rs, parse_jetbrains content = Except.ok rs) ∧
      (∃ rs, parse_vscode content = Except.ok rs) ∧
      (∃ rs, parse_http_content content = Except.ok rs) := by
  intro content
  refine ⟨⟨_, rfl⟩, ⟨_, rfl⟩, ?_⟩
  unfold parse_http_content
  cases detect_format content
  · exact ⟨_, rfl⟩
  · exact ⟨_, rfl⟩
  · exact ⟨_, rfl⟩

/-! ## Counterexamples for C1, C2, C3 -/

/-- C1 counterexample: in the document `"GET /a\n###\nGET /b\n@x = 1"` the line
`@x = 1` is a recognized file-level variable definition, yet the first emitted
request's `variables` map does not contain `x` (only the request finalized
after the definition does), refuting the claim that every definition anywhere
in the document reaches every request. -/
theorem c1_counterexample :
    matchVarDef (rustTrim "@x = 1".data) = some ("x", "1") ∧
    (jbRequests "GET /a\n###\nGET /b\n@x = 1").map
        (fun r => (r.url, lookupA "x" r.«variables»)) =
      [("/a", none), ("/b", some "1")] ∧
    ¬ (∀ r ∈ jbRequests "GET /a\n###\nGET /b\n@x = 1",
        lookupA "x" r.«variables» = some "1") := by
  exact ⟨rfl, rfl, by decide⟩

/-- C2 counterexample: for `"POST /x\n\nb1\n> \x7b% s"` the post-script opener
line has no closing `%\x7d`, and while no script is captured, the opener line
is not dropped without a state change: the parser is in body-capture mode and
appends it to the body, so the emitted request's body ends with the opener
line. -/
theorem c2_counterexample :
    postOpen (rustTrim "> \x7b% s".data) = true ∧
    (jbRequests "POST /x\n\nb1\n> \x7b% s").map
        (fun r => (r.body, r.pre_script, r.post_script)) =
      [(some "b1\n> \x7b% s", none, none)] ∧
    ¬ ((jbRequests "POST /x\n\nb1\n> \x7b% s").map (fun r => r.body) =
        [some "b1"]) := by
  exact ⟨rfl, rfl, by decide⟩

/-- C3 counterexample: parsing `"POST /x\n\n  hi  "` buffers the single body
line `"  hi  "`; the claim predicts the body `"  hi  "` (only leading/trailing
blank lines removed, whitespace inside the first and last non-blank lines
preserved verbatim), but the code applies `str::trim` to the joined body and
yields `"hi"`. -/
theorem c3_counterexample :
    (jbRequests "POST /x\n\n  hi  ").map (fun r => r.body) = [some "hi"] ∧
    ¬ ((jbRequests "POST /x\n\n  hi  ").map (fun r => r.body) =
        [some "  hi  "]) := by
  exact ⟨rfl, by decide⟩

/-! ## Claim C10 -/

/-- C10: in the VS Code parser the variable-definition test precedes every
other rule, body capture included: a line whose trimmed text matches
`@name = value` always updates the file-level table and leaves the request
buffers, body buffer and output untouched, so such a line never appears in a
request body. -/
theorem c10_vscode_vardef_in_body :
    (∀ (st : PState) (l : List Char) (n v : String),
      matchVarDef (rustTrim l) = some (n, v) →
      vsStep st l =
        { st with file_variables := insertA n v st.file_variables,
                  lineNo := st.lineNo + 1 } ∧
      (vsStep st l).body_lines = st.body_lines ∧
      (vsStep st l).current = st.current ∧
      (vsStep st l).requests = st.requests ∧
      (vsStep st l).in_body = st.in_body) ∧
    (vsRequests "POST /x\n\n\x7b\n@a = 1\n\x7d").map
        (fun r => (r.body, r.«variables»)) =
      [(some "\x7b\n\x7d", [("a", "1")])] := by
  constructor
  · intro st l n v h
    have hstep : vsStep st l =
        { st with file_variables := insertA n v st.file_variables,
                  lineNo := st.lineNo + 1 } := by
      unfold vsStep
      simp only [h]
    exact ⟨hstep, by rw [hstep], by rw [hstep], by rw [hstep], by rw [hstep]⟩
  · rfl

theorem c10_vscode_vardef_in_body_witness :
    vsStep initState ("@z = 9".data) =
      { initState with file_variables := insertA "z" "9" initState.file_variables,
                       lineNo := initState.lineNo + 1 } :=
  ((c10_vscode_vardef_in_body.1 initState ("@z = 9".data) "z" "9") (by decide)).1

/-! ## Claim C7: empty-URL requests are dropped -/

theorem mem_push_aux {rs : List ParsedRequest} {req r : ParsedRequest}
    {c : Prop} [Decidable c]
    (h : r ∈ (if c then rs ++ [req] else rs)) :
    r ∈ rs ∨ (r = req ∧ c) := by
  split at h
  case _ hc =>
    rcases List.mem_append.mp h with h1 | h1
    · exact Or.inl h1
    · exact Or.inr ⟨List.mem_singleton.mp h1, hc⟩
  case _ => exact Or.inl h

theorem jbFinalize_url (st : PState) (hinv : ∀ r ∈ st.requests, r.url ≠ "") :
    ∀ r ∈ jbFinalize st, r.url ≠ "" := by
  intro r hr
  unfold jbFinalize at hr
  split at hr
  · exact hinv r hr
  case _ req =>
    simp only [] at hr
    rcases mem_push_aux hr with h1 | ⟨rfl, h2⟩
    · exact hinv r h1
    · exact h2

theorem vsFinalize_url (st : PState) (hinv : ∀ r ∈ st.requests, r.url ≠ "") :
    ∀ r ∈ vsFinalize st, r.url ≠ "" := by
  intro r hr
  unfold vsFinalize at hr
  split at hr
  · exact hinv r hr
  case _ req =>
    simp only [] at hr
    rcases mem_push_aux hr with h1 | ⟨rfl, h2⟩
    · exact hinv r h1
    · exact h2

theorem jbStep_requests (st : PState) (l : List Char) :
    (jbStep st l).requests =
      if isSep (rustTrim l) then jbFinalize st else st.requests := by
  unfold jbStep
  by_cases hs : isSep (rustTrim l) = true
  · simp [hs]
  · simp only [hs, if_neg, Bool.false_eq_true, if_false]
    repeat' split <;> try rfl

theorem jbStep_url_invariant (st : PState) (l : List Char)
    (hinv : ∀ r ∈ st.requests, r.url ≠ "") :
    ∀ r ∈ (jbStep st l).requests, r.url ≠ "" := by
  rw [jbStep_requests]
  split
  · exact jbFinalize_url st hinv
  · exact hinv

theorem vsStep_requests (st : PState) (l : List Char) :
    (vsStep st l).requests =
      if (matchVarDef (rustTrim l)).isSome then st.requests
      else if isSep (rustTrim l) then vsFinalize st else st.requests := by
  unfold vsStep
  cases hv : matchVarDef (rustTrim l) with
  | some p =>
    obtain ⟨n, v⟩ := p
    simp [hv]
  | none =>
    simp only [hv, Option.isSome_none, Bool.false_eq_true, if_false]
    by_cases hs : isSep (rustTrim l) = true
    · simp [hs]
    · simp only [hs, if_neg, Bool.false_eq_true, if_false]
      repeat' split <;> try rfl

theorem vsStep_url_invariant (st : PState) (l : List Char)
    (hinv : ∀ r ∈ st.requests, r.url ≠ "") :
    ∀ r ∈ (vsStep st l).requests, r.url ≠ "" := by
  rw [vsStep_requests]
  split
  · exact hinv
  · split
    · exact vsFinalize_url st hinv
    · exact hinv

theorem jb_url_invariant :
    ∀ (fuel : Nat) (ls : List (List Char)) (st : PState),
      (∀ r ∈ st.requests, r.url ≠ "") →
      ∀ r ∈ jbFinalize (jbProcF fuel st ls), r.url ≠ "" := by
  intro fuel
  induction fuel with
  | zero =>
    intro ls st hinv
    cases ls <;> exact jbFinalize_url st hinv
  | succ fuel ih =>
    intro ls st hinv
    cases ls with
    | nil => exact jbFinalize_url st hinv
    | cons l ls' =>
      rw [jbProcF]
      simp only []
      split
      · split
        · exact ih _ _ hinv
        · exact ih _ _ (jbStep_url_invariant st l hinv)
      · split
        · split
          · exact ih _ _ (by
              intro r hr
              exact hinv r (by simpa [jbAttachPost] using hr))
          · exact ih _ _ (jbStep_url_invariant st l hinv)
        · exact ih _ _ (jbStep_url_invariant st l hinv)

theorem vs_url_invariant :
    ∀ (ls : List (List Char)) (st : PState),
      (∀ r ∈ st.requests, r.url ≠ "") →
      ∀ r ∈ vsFinalize (ls.foldl vsStep st), r.url ≠ "" := by
  intro ls
  induction ls with
  | nil => intro st hinv; exact vsFinalize_url st hinv
  | cons l ls ih =>
    intro st hinv
    rw [List.foldl_cons]
    exact ih _ (vsStep_url_invariant st l hinv)

/-- C7: in both dialect parsers, a request whose URL is still empty at
finalization is dropped: every emitted request has a non-empty URL, and a
document consisting of a single header line yields zero requests. -/
theorem c7_empty_url_dropped :
    (∀ (content : String) (r : ParsedRequest), r ∈ jbRequests content → r.url ≠ "") ∧
    (∀ (content : String) (r : ParsedRequest), r ∈ vsRequests content → r.url ≠ "") ∧
    jbRequests "Content-Type: application/json" = [] ∧
    vsRequests "Content-Type: application/json" = [] := by
  refine ⟨?_, ?_, rfl, rfl⟩
  · intro content r hr
    exact jb_url_invariant _ _ initState (by simp [initState]) r hr
  · intro content r hr
    exact vs_url_invariant _ initState (by simp [initState]) r hr

theorem c7_empty_url_dropped_witness :
    ({ method := "GET", url := "/x", line_number := 1 } : ParsedRequest).url ≠ "" :=
  c7_empty_url_dropped.1 "GET /x" { method := "GET", url := "/x", line_number := 1 }
    (by decide)

/-! ## Head-character lemmas about the line classifiers -/

theorem lsw_head_ne {c p : Char} {cs ps : List Char} (h : c ≠ p) :
    listStartsWith (c :: cs) (p :: ps) = false := by
  simp [listStartsWith, h]

theorem isSep_head {c : Char} {r : List Char} (h : c ≠ '#') :
    isSep (c :: r) = false := by
  simp [isSep, listStartsWith, h]

theorem isComment_head {c : Char} {r : List Char} (h1 : c ≠ '#') (h2 : c ≠ '/') :
    isComment (c :: r) = false := by
  simp [isComment, listStartsWith, h1, h2]

theorem matchMetadata_head {c : Char} {r : List Char} (h : c ≠ '#') :
    matchMetadata (c :: r) = none := by
  unfold matchMetadata
  split
  case _ rest heq => exact absurd (List.cons.injEq .. ▸ heq) (by simp [h])
  case _ => rfl

theorem matchVarDef_head {c : Char} {r : List Char} (h : c ≠ '@') :
    matchVarDef (c :: r) = none := by
  unfold matchVarDef
  split
  case _ rest heq => exact absurd (List.cons.injEq .. ▸ heq) (by simp [h])
  case _ => rfl

theorem preOpen_head {c : Char} {r : List Char} (h : c ≠ '<') :
    preOpen (c :: r) = false := by
  unfold preOpen
  split
  case _ rest heq => exact absurd (List.cons.injEq .. ▸ heq) (by simp [h])
  case _ => rfl

theorem postOpen_head {c : Char} {r : List Char} (h : c ≠ '>') :
    postOpen (c :: r) = false := by
  unfold postOpen
  split
  case _ rest heq => exact absurd (List.cons.injEq .. ▸ heq) (by simp [h])
  case _ => rfl

theorem matchHeader_head {c : Char} {r : List Char} (h : isWordDash c = false) :
    matchHeader (c :: r) = none := by
  unfold matchHeader
  simp [List.takeWhile_cons, h]

theorem matchMethod_head {c : Char} {r : List Char}
    (hG : c ≠ 'G') (hP : c ≠ 'P') (hD : c ≠ 'D') (hH : c ≠ 'H') (hO : c ≠ 'O')
    (hT : c ≠ 'T') (hC : c ≠ 'C') :
    matchMethod (c :: r) = none := by
  unfold matchMethod
  split
  · rfl
  case _ v heq =>
    have hv := List.find?_some heq
    have hmem := List.mem_of_find?_eq_some heq
    fin_cases hmem <;> simp [listStartsWith, hG, hP, hD, hH, hO, hT, hC] at hv

theorem isBareUrl_head {c : Char} {r : List Char} (h1 : c ≠ 'h') (h2 : c ≠ '/') :
    isBareUrl (c :: r) = false := by
  simp [isBareUrl, listStartsWith, h1, h2]

theorem preOpen_shape {t : List Char} (h : preOpen t = true) :
    ∃ r, t = '<' :: r := by
  cases t with
  | nil => simp [preOpen] at h
  | cons c r =>
    by_cases hc : c = '<'
    · exact ⟨r, by rw [hc]⟩
    · rw [preOpen_head hc] at h
      exact absurd h (by simp)

theorem postOpen_shape {t : List Char} (h : postOpen t = true) :
    ∃ r, t = '>' :: r := by
  cases t with
  | nil => simp [postOpen] at h
  | cons c r =>
    by_cases hc : c = '>'
    · exact ⟨r, by rw [hc]⟩
    · rw [postOpen_head hc] at h
      exact absurd h (by simp)

/-! ## Claim C3 (amended): body assembly at finalization -/

/-- C3 (amended): when a request is finalized in body-capture mode with a
non-empty buffer, its body is the raw buffered lines joined by newline and then
trimmed of leading and trailing whitespace by Rust `str::trim` (so whitespace
at the edges of the first and last non-blank lines is also removed, not only
blank lines); the claim's concrete example still yields the body
`\x7b"a":1\x7d`. -/
theorem c3_body_trim :
    (∀ (st : PState) (req : ParsedRequest),
      st.current = some req → st.in_body = true → st.body_lines ≠ [] →
      req.url ≠ "" →
      jbFinalize st = st.requests ++
        [{ req with body := some ⟨rustTrim (intercalateNL st.body_lines)⟩,
                    «variables» := insertAll st.file_variables req.«variables» }]) ∧
    (∀ (st : PState) (req : ParsedRequest),
      st.current = some req → st.in_body = true → st.body_lines ≠ [] →
      req.url ≠ "" →
      vsFinalize st = st.requests ++
        [{ req with body := some ⟨rustTrim (intercalateNL st.body_lines)⟩,
                    «variables» := st.file_variables }]) ∧
    parse_http_content "POST /x\n\n\x7b\"a\":1\x7d\n" =
      Except.ok [{ method := "POST", url := "/x", body := some "\x7b\"a\":1\x7d",
                   line_number := 1 }] := by
  refine ⟨?_, ?_, rfl⟩
  · intro st req h1 h2 h3 h4
    unfold jbFinalize
    rw [h1]
    simp [h2, h3, h4]
  · intro st req h1 h2 h3 h4
    unfold vsFinalize
    rw [h1]
    simp [h2, h3, h4]

theorem c3_body_trim_witness :
    jbFinalize { requests := [], current := some { url := "/x" }, in_body := true,
                 body_lines := [" a ".data], file_variables := [], lineNo := 4 } =
      [{ url := "/x", body := some ⟨rustTrim (intercalateNL [" a ".data])⟩,
         «variables» := insertAll [] [] }] :=
  c3_body_trim.1
    { requests := [], current := some { url := "/x" }, in_body := true,
      body_lines := [" a ".data], file_variables := [], lineNo := 4 }
    { url := "/x" } rfl rfl (by decide) (by decide)

/-! ## Claim C2 (amended): unclosed script openers -/

/-- C2 (amended): when a script-opener line has no closing `%\x7d` before a
separator or end of input, no script is captured from it, no parse error is
produced, and the opener matches no other classification rule; however it is
not entirely state-free: the already-emitted requests, file-level variables
and body-mode flag are unchanged, but in body-capture mode the opener line is
appended to the body buffer, and when no request is active an in-progress
request is created at the opener's line number (with no scripts attached). -/
theorem c2_unclosed_opener_step :
    ∀ (fuel : Nat) (st : PState) (l : List Char) (ls : List (List Char)),
      (preOpen (rustTrim l) = true ∨ postOpen (rustTrim l) = true) →
      extractScript ls = none →
      jbProcF (fuel + 1) st (l :: ls) = jbProcF fuel (jbStep st l) ls ∧
      (jbStep st l).requests = st.requests ∧
      (jbStep st l).file_variables = st.file_variables ∧
      (jbStep st l).in_body = st.in_body ∧
      (jbStep st l).body_lines =
        (if st.in_body then st.body_lines ++ [l] else st.body_lines) ∧
      (jbStep st l).current = some (st.current.getD (newRequest st.lineNo)) := by
  intro fuel st l ls hop hex
  obtain ⟨c, r, hcr, hc⟩ : ∃ c r, rustTrim l = c :: r ∧ (c = '<' ∨ c = '>') := by
    rcases hop with h | h
    · obtain ⟨r, hr⟩ := preOpen_shape h
      exact ⟨'<', r, hr, Or.inl rfl⟩
    · obtain ⟨r, hr⟩ := postOpen_shape h
      exact ⟨'>', r, hr, Or.inr rfl⟩
  have hsep : isSep (rustTrim l) = false := by
    rw [hcr]; exact isSep_head (by rcases hc with rfl | rfl <;> decide)
  have hmeta : matchMetadata (rustTrim l) = none := by
    rw [hcr]; exact matchMetadata_head (by rcases hc with rfl | rfl <;> decide)
  have hcom : isComment (rustTrim l) = false := by
    rw [hcr]
    exact isComment_head (by rcases hc with rfl | rfl <;> decide)
      (by rcases hc with rfl | rfl <;> decide)
  have hvar : matchVarDef (rustTrim l) = none := by
    rw [hcr]; exact matchVarDef_head (by rcases hc with rfl | rfl <;> decide)
  have hmeth : matchMethod (rustTrim l) = none := by
    rw [hcr]
    exact matchMethod_head (by rcases hc with rfl | rfl <;> decide)
      (by rcases hc with rfl | rfl <;> decide) (by rcases hc with rfl | rfl <;> decide)
      (by rcases hc with rfl | rfl <;> decide) (by rcases hc with rfl | rfl <;> decide)
      (by rcases hc with rfl | rfl <;> decide) (by rcases hc with rfl | rfl <;> decide)
  have hhead : matchHeader (rustTrim l) = none := by
    rw [hcr]; exact matchHeader_head (by rcases hc with rfl | rfl <;> decide)
  have hbare : isBareUrl (rustTrim l) = false := by
    rw [hcr]
    exact isBareUrl_head (by rcases hc with rfl | rfl <;> decide)
      (by rcases hc with rfl | rfl <;> decide)
  have hne : rustTrim l ≠ [] := by rw [hcr]; simp
  have hstep : jbStep st l =
      if st.in_body then
        { st with current := some (st.current.getD (newRequest st.lineNo)),
                  body_lines := st.body_lines ++ [l], lineNo := st.lineNo + 1 }
      else
        { st with current := some (st.current.getD (newRequest st.lineNo)),
                  lineNo := st.lineNo + 1 } := by
    unfold jbStep
    simp only [hsep, hmeta, hcom, hvar, hmeth, hhead, hbare, hne, Bool.false_eq_true,
      if_false, and_false, false_and, ne_eq, not_false_eq_true, and_true]
  refine ⟨?_, ?_, ?_, ?_, ?_, ?_⟩
  · rcases hop with h | h
    · rw [jbProcF]
      simp only [h, if_true, hex]
    · have hpre : preOpen (rustTrim l) = false := by
        rw [hcr]
        rcases hc with rfl | rfl
        · rw [hcr] at h
          exact absurd h (by rw [postOpen_head (by decide)]; simp)
        · exact preOpen_head (by decide)
      rw [jbProcF]
      simp only [hpre, h, Bool.false_eq_true, if_false, if_true, hex]
  · rw [hstep]; split <;> rfl
  · rw [hstep]; split <;> rfl
  · rw [hstep]; split <;> rfl
  · rw [hstep]; split <;> rfl
  · rw [hstep]; split <;> rfl

theorem c2_unclosed_opener_step_witness :
    jbProcF 1 initState ["> \x7b% s".data] =
      jbProcF 0 (jbStep initState "> \x7b% s".data) [] ∧
    (jbStep initState "> \x7b% s".data).requests = initState.requests ∧
    (jbStep initState "> \x7b% s".data).file_variables = initState.file_variables ∧
    (jbStep initState "> \x7b% s".data).in_body = initState.in_body ∧
    (jbStep initState "> \x7b% s".data).body_lines =
      (if initState.in_body then initState.body_lines ++ ["> \x7b% s".data]
       else initState.body_lines) ∧
    (jbStep initState "> \x7b% s".data).current =
      some (initState.current.getD (newRequest initState.lineNo)) :=
  c2_unclosed_opener_step 0 initState "> \x7b% s".data [] (Or.inr (by decide)) rfl

/-! ## Claim C8: single method-line round trip -/


theorem findUV_no_ws :
    ∀ (rest acc : List Char), (∀ c ∈ rest, isWs c = false) →
      findUV acc rest = (acc.reverse ++ rest, none) := by
  intro rest
  induction rest with
  | nil => intro acc h; simp [findUV]
  | cons c rest ih =>
    intro acc h
    have hc : isWs c = false := h c (List.mem_cons_self _ _)
    have hvt : versionTail (c :: rest) = none := by
      unfold versionTail
      rw [if_pos]
      simp [List.takeWhile_cons, hc]
    rw [findUV, hvt]
    rw [ih (c :: acc) (fun x hx => h x (List.mem_cons_of_mem _ hx))]
    simp

theorem lsw_append_self : ∀ (xs ys : List Char), listStartsWith (xs ++ ys) xs = true := by
  intro xs ys
  induction xs with
  | nil => cases ys <;> rfl
  | cons x xs ih => simp [listStartsWith, ih]

theorem matchMethod_line (m u : String) (hm : m ∈ httpVerbs)
    (hne : u.data ≠ []) (hws : ∀ c ∈ u.data, isWs c = false) :
    matchMethod (m.data ++ ' ' :: u.data) = some (m, u, none) := by
  obtain ⟨c, ud, hcu⟩ := List.exists_cons_of_ne_nil hne
  have hc : isWs c = false := hws c (by rw [hcu]; exact List.mem_cons_self _ _)
  have hud : ∀ x ∈ ud, isWs x = false := fun x hx =>
    hws x (by rw [hcu]; exact List.mem_cons_of_mem _ hx)
  have hfuv : findUV [c] ud = (c :: ud, none) := by
    rw [findUV_no_ws ud [c] hud]
    simp
  have hu : (⟨c :: ud⟩ : String) = u := by rw [← hcu]
  rw [hcu]
  unfold matchMethod
  split
  case _ heq =>
    exfalso
    refine (List.find?_eq_none.mp heq m hm) ?_
    have h2 : List.drop m.length (m.data ++ ' ' :: c :: ud) = ' ' :: c :: ud :=
      List.drop_left m.data _
    simp [lsw_append_self, h2, show isWs ' ' = true from rfl]
  case _ v heq =>
    have hv := List.find?_some heq
    have hmem := List.mem_of_find?_eq_some heq
    simp only [httpVerbs, List.mem_cons, List.not_mem_nil, or_false] at hm
    rcases hm with rfl|rfl|rfl|rfl|rfl|rfl|rfl|rfl|rfl <;>
      (fin_cases hmem <;>
        first
          | (simp [listStartsWith] at hv; done)
          | simp [String.length, List.dropWhile, show isWs ' ' = true from rfl,
              hc, hfuv, hu])



theorem splitNL_no_nl : ∀ (cs : List Char), (∀ c ∈ cs, c ≠ '\n') → splitNL cs = [cs] := by
  intro cs
  induction cs with
  | nil => intro _; rfl
  | cons c cs ih =>
    intro h
    rw [splitNL]
    rw [if_neg (h c (List.mem_cons_self _ _))]
    rw [ih (fun x hx => h x (List.mem_cons_of_mem _ hx))]

theorem linesOf_single (s : String) (h1 : ∀ c ∈ s.data, c ≠ '\n') (h2 : s.data ≠ []) :
    linesOf s = [s.data] := by
  unfold linesOf
  rw [splitNL_no_nl s.data h1]
  simp [h2]

theorem dropWhile_keep_head {cs : List Char}
    (h : ∀ x, cs.head? = some x → isWs x = false) :
    cs.dropWhile isWs = cs := by
  cases cs with
  | nil => rfl
  | cons c cs =>
    rw [List.dropWhile_cons_of_neg]
    simp [h c rfl]

theorem rustTrim_keep {cs : List Char}
    (hh : ∀ x, cs.head? = some x → isWs x = false)
    (hl : ∀ x, cs.getLast? = some x → isWs x = false) :
    rustTrim cs = cs := by
  unfold rustTrim
  rw [dropWhile_keep_head hh]
  rw [dropWhile_keep_head (by
    intro x hx
    rw [List.head?_reverse] at hx
    exact hl x hx)]
  exact List.reverse_reverse cs



/-- C8: a document that is the single line given by one of the nine known HTTP
verbs, a space, and a non-empty whitespace-free URL parses (through format
detection) to exactly one request with that method and URL, default line
number 1, no HTTP version, empty headers and variables, and no body or
scripts. -/
theorem c8_single_line_round_trip :
    ∀ (m u : String), m ∈ httpVerbs → u ≠ "" → (∀ c ∈ u.data, isWs c = false) →
      parse_http_content (m ++ " " ++ u) =
        Except.ok [{ method := m, url := u, line_number := 1 }] := by
  intro m u hm hu hws
  have hne : u.data ≠ [] := by
    intro hd
    apply hu
    rw [← string_eta u, hd]
  obtain ⟨cu, ud, hcu⟩ := List.exists_cons_of_ne_nil hne
  obtain ⟨c0, r0, hm0, hc0⟩ :
      ∃ c0 r0, m.data = c0 :: r0 ∧
        (c0 = 'G' ∨ c0 = 'P' ∨ c0 = 'D' ∨ c0 = 'H' ∨ c0 = 'O' ∨ c0 = 'T' ∨ c0 = 'C') := by
    fin_cases hm <;> exact ⟨_, _, rfl, by decide⟩
  have hmws : ∀ c ∈ m.data, isWs c = false := by
    fin_cases hm <;> decide
  have hdata : (m ++ " " ++ u).data = m.data ++ ' ' :: u.data := by
    simp [String.data_append]
  -- the document consists of the single line
  have hlines : linesOf (m ++ " " ++ u) = [m.data ++ ' ' :: u.data] := by
    have hnl : ∀ c ∈ (m ++ " " ++ u).data, c ≠ '\n' := by
      rw [hdata]
      intro c hc
      rcases List.mem_append.mp hc with h | h
      · intro he
        have hw := hmws c h
        rw [he] at hw
        exact absurd hw (by decide)
      · rcases List.mem_cons.mp h with rfl | h
        · decide
        · intro he
          have hw := hws c h
          rw [he] at hw
          exact absurd hw (by decide)
    have hne2 : (m ++ " " ++ u).data ≠ [] := by
      rw [hdata, hm0]
      simp
    rw [linesOf_single _ hnl hne2, hdata]
  -- the line is already trimmed
  have htrim : rustTrim (m.data ++ ' ' :: u.data) = m.data ++ ' ' :: u.data := by
    apply rustTrim_keep
    · intro x hx
      rw [hm0] at hx
      simp at hx
      rw [← hx]
      exact hmws c0 (by rw [hm0]; exact List.mem_cons_self _ _)
    · intro x hx
      rw [List.getLast?_append_cons, hcu] at hx
      rw [show (' ' :: cu :: ud) = [' '] ++ cu :: ud from rfl,
        List.getLast?_append_cons] at hx
      rw [List.getLast?_eq_getLast_of_ne_nil (List.cons_ne_nil cu ud)] at hx
      have hmem : x ∈ cu :: ud := by
        rw [show x = (cu :: ud).getLast (List.cons_ne_nil cu ud) by
          exact (Option.some.injEq .. ▸ hx.symm : _)]
        exact List.getLast_mem _
      rw [← hcu] at hmem
      exact hws x hmem
  have hc0' : c0 ≠ '<' ∧ c0 ≠ '>' ∧ c0 ≠ '#' ∧ c0 ≠ '@' ∧ c0 ≠ '/' ∧ c0 ≠ 'h' := by
    rcases hc0 with rfl | rfl | rfl | rfl | rfl | rfl | rfl <;> exact ⟨by decide, by decide,
      by decide, by decide, by decide, by decide⟩
  have hshape : m.data ++ ' ' :: u.data = c0 :: (r0 ++ ' ' :: u.data) := by
    rw [hm0]
    rfl
  -- detection: JetBrains
  have hdet : detect_format (m ++ " " ++ u) = HttpFileFormat.JetBrains := by
    unfold detect_format
    rw [hlines]
    have h1 : detectScriptLine (m.data ++ ' ' :: u.data) = false := by
      unfold detectScriptLine
      rw [htrim, hshape, lsw_head_ne hc0'.1, lsw_head_ne hc0'.2.1]
      rfl
    have h2 : detectVarLine (m.data ++ ' ' :: u.data) = false := by
      unfold detectVarLine
      rw [htrim, hshape]
      split
      case _ rest heq => exact absurd (List.cons.injEq .. ▸ heq) (by simp [hc0'.2.2.2.1])
      case _ => rfl
    simp [h1, h2]
  -- the method line parses
  have hmeth : matchMethod (rustTrim (m.data ++ ' ' :: u.data)) = some (m, u, none) := by
    rw [htrim]
    exact matchMethod_line m u hm hne hws
  have hsep : isSep (rustTrim (m.data ++ ' ' :: u.data)) = false := by
    rw [htrim, hshape]; exact isSep_head hc0'.2.2.1
  have hmeta : matchMetadata (rustTrim (m.data ++ ' ' :: u.data)) = none := by
    rw [htrim, hshape]; exact matchMetadata_head hc0'.2.2.1
  have hcom : isComment (rustTrim (m.data ++ ' ' :: u.data)) = false := by
    rw [htrim, hshape]; exact isComment_head hc0'.2.2.1 hc0'.2.2.2.2.1
  have hvar : matchVarDef (rustTrim (m.data ++ ' ' :: u.data)) = none := by
    rw [htrim, hshape]; exact matchVarDef_head hc0'.2.2.2.1
  have hpre : preOpen (rustTrim (m.data ++ ' ' :: u.data)) = false := by
    rw [htrim, hshape]; exact preOpen_head hc0'.1
  have hpost : postOpen (rustTrim (m.data ++ ' ' :: u.data)) = false := by
    rw [htrim, hshape]; exact postOpen_head hc0'.2.1
  have hne' : rustTrim (m.data ++ ' ' :: u.data) ≠ [] := by
    rw [htrim, hshape]; simp
  -- now run the parser
  unfold parse_http_content
  rw [hdet]
  unfold parse_jetbrains
  rw [hlines]
  simp only [List.length_cons, List.length_nil]
  rw [jbProcF]
  simp only [hpre, hpost, Bool.false_eq_true, if_false]
  have hstep : jbStep initState (m.data ++ ' ' :: u.data) =
      { requests := [], current := some { method := m, url := u, line_number := 1 },
        in_body := false, body_lines := [], file_variables := [], lineNo := 2 } := by
    unfold jbStep
    simp only [hsep, hmeta, hcom, hvar, hmeth, hne', Bool.false_eq_true, if_false,
      initState]
    simp [newRequest]
  rw [hstep]
  rw [jbProcF]
  simp [jbFinalize, insertAll, hu]

theorem c8_single_line_round_trip_witness :
    parse_http_content ("GET" ++ " " ++ "/x") =
      Except.ok [{ method := "GET", url := "/x", line_number := 1 }] :=
  c8_single_line_round_trip "GET" "/x" (by decide) (by decide) (by decide)

/-! ## Claim C1 (amended): variables at finalization -/
theorem jbProcF_nil (fuel : Nat) (st : PState) : jbProcF fuel st [] = st := by
  cases fuel <;> rfl

theorem extractScript_len :
    ∀ {ls ss rest}, extractScript ls = some (ss, rest) → rest.length < ls.length := by
  intro ls
  induction ls with
  | nil => intro ss rest h; exact absurd h (by simp [extractScript])
  | cons l ls ih =>
    intro ss rest h
    rw [extractScript] at h
    split at h
    · simp only [Option.some.injEq, Prod.mk.injEq] at h
      rw [← h.2]
      simp
    · split at h
      · exact absurd h (by simp)
      · cases hde : extractScript ls with
        | some p =>
          obtain ⟨ss', rest'⟩ := p
          rw [hde] at h
          simp only [Option.some.injEq, Prod.mk.injEq] at h
          have := ih hde
          rw [← h.2]
          exact Nat.lt_succ_of_lt this
        | none => rw [hde] at h; exact absurd h (by simp)

theorem extractScript_taken :
    ∀ {ls ss rest}, extractScript ls = some (ss, rest) →
      ∃ tk, ls = tk ++ rest ∧ ∀ X, extractScript (tk ++ X) = some (ss, X) := by
  intro ls
  induction ls with
  | nil => intro ss rest h; exact absurd h (by simp [extractScript])
  | cons l ls ih =>
    intro ss rest h
    rw [extractScript] at h
    split at h
    case _ hcl =>
      simp only [Option.some.injEq, Prod.mk.injEq] at h
      refine ⟨[l], by simp [h.2], fun X => ?_⟩
      rw [List.singleton_append, extractScript]
      rw [if_pos hcl]
      simp [h.1]
    case _ hcl =>
      split at h
      case _ hsep => exact absurd h (by simp)
      case _ hsep =>
        cases hde : extractScript ls with
        | some p =>
          obtain ⟨ss', rest'⟩ := p
          rw [hde] at h
          simp only [Option.some.injEq, Prod.mk.injEq] at h
          obtain ⟨tk, htk, htkX⟩ := ih hde
          refine ⟨l :: tk, by simp [htk, h.2], fun X => ?_⟩
          rw [List.cons_append, extractScript]
          rw [if_neg (by simpa using hcl), if_neg (by simpa using hsep)]
          rw [htkX X]
          simp [← h.1]
        | none => rw [hde] at h; exact absurd h (by simp)

theorem extractScript_none_take :
    ∀ (pfx sfx : List (List Char)), extractScript (pfx ++ sfx) = none →
      extractScript pfx = none := by
  intro pfx
  induction pfx with
  | nil => intro sfx _; rfl
  | cons l pfx ih =>
    intro sfx h
    rw [List.cons_append, extractScript] at h
    rw [extractScript]
    split at h
    · exact absurd h (by simp)
    case _ hcl =>
      rw [if_neg (by simpa using hcl)]
      split at h
      case _ hsep => rw [if_pos hsep]
      case _ hsep =>
        rw [if_neg (by simpa using hsep)]
        cases hde : extractScript (pfx ++ sfx) with
        | some p => rw [hde] at h; obtain ⟨a, b⟩ := p; exact absurd h (by simp)
        | none => rw [ih sfx hde]



theorem insertA_not_mem (k v : String) :
    ∀ (m : List (String × String)), k ∉ m.map Prod.fst →
      insertA k v m = m ++ [(k, v)] := by
  intro m
  induction m with
  | nil => intro _; rfl
  | cons p t ih =>
    intro h
    obtain ⟨k', v'⟩ := p
    simp only [List.map_cons, List.mem_cons, not_or] at h
    rw [insertA, if_neg (fun he => h.1 (by rw [he]))]
    rw [ih h.2]
    rfl

theorem insertAll_append (fv : List (String × String)) :
    ∀ (acc : List (String × String)),
      (((acc ++ fv).map Prod.fst).Nodup) → insertAll fv acc = acc ++ fv := by
  induction fv with
  | nil => intro acc _; simp [insertAll]
  | cons p t ih =>
    intro acc h
    obtain ⟨k, v⟩ := p
    have hnot : k ∉ acc.map Prod.fst := by
      simp only [List.map_append, List.map_cons] at h
      have h2 := (List.nodup_append.mp h).2.2
      intro hk
      exact h2 hk (List.mem_cons_self _ _)
    show insertAll t (insertA k v acc) = acc ++ (k, v) :: t
    rw [insertA_not_mem k v acc hnot]
    rw [ih (acc ++ [(k, v)]) (by simpa using h)]
    simp

theorem insertAll_nil (fv : List (String × String))
    (h : (fv.map Prod.fst).Nodup) : insertAll fv [] = fv := by
  simpa using insertAll_append fv [] (by simpa using h)

theorem insertA_keys_nodup (k v : String) :
    ∀ (m : List (String × String)), (m.map Prod.fst).Nodup →
      ((insertA k v m).map Prod.fst).Nodup := by
  intro m
  by_cases hk : k ∈ m.map Prod.fst
  · intro h
    -- replacement: keys unchanged
    have : (insertA k v m).map Prod.fst = m.map Prod.fst := by
      clear h
      induction m with
      | nil => simp at hk
      | cons p t ih =>
        obtain ⟨k', v'⟩ := p
        rw [insertA]
        by_cases he : k' = k
        · rw [if_pos he]
          simp [he]
        · rw [if_neg he]
          simp only [List.map_cons] at hk ⊢
          rcases List.mem_cons.mp hk with h1 | h1
          · exact absurd h1.symm he
          · rw [ih h1]
    rw [this]
    exact h
  · intro h
    rw [insertA_not_mem k v m hk]
    simp only [List.map_append, List.map_cons, List.map_nil]
    rw [List.nodup_append]
    refine ⟨h, by simp, ?_⟩
    intro a ha hb
    simp at hb
    rw [hb] at ha
    exact hk ha



theorem jbProcF_fuel :
    ∀ (f1 : Nat) (ls : List (List Char)) (st : PState) (f2 : Nat),
      ls.length ≤ f1 → ls.length ≤ f2 → jbProcF f1 st ls = jbProcF f2 st ls := by
  intro f1
  induction f1 with
  | zero =>
    intro ls st f2 h1 _
    have h0 : ls = [] := List.eq_nil_of_length_eq_zero (Nat.le_zero.mp h1)
    subst h0
    rw [jbProcF_nil, jbProcF_nil]
  | succ f1 ih =>
    intro ls st f2 h1 h2
    cases ls with
    | nil => rw [jbProcF_nil, jbProcF_nil]
    | cons l ls' =>
      cases f2 with
      | zero => simp at h2
      | succ g =>
        rw [jbProcF, jbProcF]
        simp only [List.length_cons, Nat.succ_le_succ_iff] at h1 h2
        by_cases hpre : preOpen (rustTrim l) = true
        · rw [if_pos hpre, if_pos hpre]
          cases hde : extractScript ls' with
          | some p =>
            obtain ⟨ss, rest⟩ := p
            have hr := Nat.le_of_lt (extractScript_len hde)
            exact ih rest _ g (le_trans hr h1) (le_trans hr h2)
          | none => exact ih ls' _ g h1 h2
        · rw [if_neg hpre, if_neg hpre]
          by_cases hpost : postOpen (rustTrim l) = true
          · rw [if_pos hpost, if_pos hpost]
            cases hde : extractScript ls' with
            | some p =>
              obtain ⟨ss, rest⟩ := p
              have hr := Nat.le_of_lt (extractScript_len hde)
              exact ih rest _ g (le_trans hr h1) (le_trans hr h2)
            | none => exact ih ls' _ g h1 h2
          · rw [if_neg hpost, if_neg hpost]
            exact ih ls' _ g h1 h2



theorem jbStep_nodup (st : PState) (l : List Char)
    (h : (st.file_variables.map Prod.fst).Nodup) :
    (((jbStep st l).file_variables).map Prod.fst).Nodup := by
  unfold jbStep
  dsimp only
  repeat' split
  all_goals first | exact h | exact insertA_keys_nodup _ _ _ h

theorem jbStep_varinv (st : PState) (l : List Char)
    (h : ∀ c, st.current = some c → c.«variables» = []) :
    ∀ c, (jbStep st l).current = some c → c.«variables» = [] := by
  have hcur : (st.current.getD (newRequest st.lineNo)).«variables» = [] := by
    cases hc2 : st.current with
    | none => rfl
    | some c2 => simpa using h c2 hc2
  intro c
  unfold jbStep
  dsimp only
  intro hc
  repeat' split at hc
  all_goals
    first
      | exact h c hc
      | (simp only [Option.some.injEq] at hc; subst hc;
         first | rfl | exact hcur)

theorem jbFinalize_mem {st : PState} {r : ParsedRequest} (h : r ∈ jbFinalize st) :
    r ∈ st.requests ∨
      ∃ c, st.current = some c ∧
        r.«variables» = insertAll st.file_variables c.«variables» := by
  unfold jbFinalize at h
  split at h
  · exact Or.inl h
  case _ req hreq =>
    simp only [] at h
    rcases mem_push_aux h with h1 | ⟨rfl, _⟩
    · exact Or.inl h1
    · right
      exact ⟨req, hreq, by split <;> rfl⟩

theorem vsFinalize_mem {st : PState} {r : ParsedRequest} (h : r ∈ vsFinalize st) :
    r ∈ st.requests ∨ r.«variables» = st.file_variables := by
  unfold vsFinalize at h
  split at h
  · exact Or.inl h
  case _ req hreq =>
    simp only [] at h
    rcases mem_push_aux h with h1 | ⟨rfl, _⟩
    · exact Or.inl h1
    · exact Or.inr rfl



theorem jb_vars_prefix :
    ∀ (fuel : Nat) (ls : List (List Char)) (st : PState),
      ls.length ≤ fuel →
      (∀ c, st.current = some c → c.«variables» = []) →
      ((st.file_variables.map Prod.fst).Nodup) →
      ∀ r ∈ jbFinalize (jbProcF fuel st ls),
        r ∈ st.requests ∨
        ∃ pfx sfx, ls = pfx ++ sfx ∧
          ∀ n, lookupA n r.«variables» =
            lookupA n (jbProcF pfx.length st pfx).file_variables := by
  intro fuel
  induction fuel with
  | zero =>
    intro ls st hlen hvar hnd r hr
    have h0 : ls = [] := List.eq_nil_of_length_eq_zero (Nat.le_zero.mp hlen)
    subst h0
    rw [jbProcF_nil] at hr
    rcases jbFinalize_mem hr with h | ⟨c, hc, hv⟩
    · exact Or.inl h
    · right
      refine ⟨[], [], rfl, fun n => ?_⟩
      rw [hv, hvar c hc, insertAll_nil _ hnd]
      rfl
  | succ fuel ih =>
    intro ls st hlen hvar hnd r hr
    cases ls with
    | nil =>
      rw [jbProcF_nil] at hr
      rcases jbFinalize_mem hr with h | ⟨c, hc, hv⟩
      · exact Or.inl h
      · right
        refine ⟨[], [], rfl, fun n => ?_⟩
        rw [hv, hvar c hc, insertAll_nil _ hnd]
        rfl
    | cons l ls' =>
      simp only [List.length_cons, Nat.succ_le_succ_iff] at hlen
      rw [jbProcF] at hr
      -- helper facts for the three step shapes
      by_cases hpre : preOpen (rustTrim l) = true
      · rw [if_pos hpre] at hr
        cases hde : extractScript ls' with
        | some p =>
          obtain ⟨ss, rest⟩ := p
          rw [hde] at hr
          obtain ⟨tk, htk, htkX⟩ := extractScript_taken hde
          have hrest : rest.length ≤ fuel :=
            le_trans (Nat.le_of_lt (extractScript_len hde)) hlen
          have hvar2 : ∀ c, ({ jbAttachPre st ss with
              lineNo := st.lineNo + (1 + (ls'.length - rest.length)) } : PState).current =
                some c → c.«variables» = [] := by
            intro c hc
            simp only [jbAttachPre, Option.some.injEq] at hc
            subst hc
            show (st.current.getD (newRequest st.lineNo)).«variables» = []
            cases hc2 : st.current with
            | none => rfl
            | some c2 => simpa using hvar c2 hc2
          rcases ih rest _ hrest hvar2 hnd r hr with h | ⟨pfx', sfx', hsplit, hlook⟩
          · exact Or.inl h
          · right
            refine ⟨l :: (tk ++ pfx'), sfx', by rw [htk, hsplit]; simp, fun n => ?_⟩
            rw [hlook n]
            have hrun : jbProcF (l :: (tk ++ pfx')).length st (l :: (tk ++ pfx')) =
                jbProcF pfx'.length
                  ({ jbAttachPre st ss with
                     lineNo := st.lineNo + (1 + (ls'.length - rest.length)) }) pfx' := by
              simp only [List.length_cons]
              rw [jbProcF]
              rw [if_pos hpre, htkX pfx']
              dsimp only
              have harith1 : (tk ++ pfx').length - pfx'.length = tk.length := by
                simp
              have harith2 : ls'.length - rest.length = tk.length := by
                rw [htk]; simp
              rw [harith1, harith2]
              exact jbProcF_fuel _ _ _ _ (by simp) le_rfl
            rw [hrun]
        | none =>
          rw [hde] at hr
          rcases ih ls' _ hlen (jbStep_varinv st l hvar) (jbStep_nodup st l hnd) r hr with
            h | ⟨pfx', sfx', hsplit, hlook⟩
          · rw [jbStep_requests] at h
            split at h
            · rcases jbFinalize_mem h with h2 | ⟨c, hc, hv⟩
              · exact Or.inl h2
              · right
                refine ⟨[], l :: ls', rfl, fun n => ?_⟩
                rw [hv, hvar c hc, insertAll_nil _ hnd]
                rfl
            · exact Or.inl h
          · right
            refine ⟨l :: pfx', sfx', by rw [hsplit]; rfl, fun n => ?_⟩
            rw [hlook n]
            have hrun : jbProcF (l :: pfx').length st (l :: pfx') =
                jbProcF pfx'.length (jbStep st l) pfx' := by
              simp only [List.length_cons]
              rw [jbProcF]
              rw [if_pos hpre]
              rw [extractScript_none_take pfx' sfx' (by rw [← hsplit]; exact hde)]
            rw [hrun]
      · rw [if_neg hpre] at hr
        by_cases hpost : postOpen (rustTrim l) = true
        · rw [if_pos hpost] at hr
          cases hde : extractScript ls' with
          | some p =>
            obtain ⟨ss, rest⟩ := p
            rw [hde] at hr
            obtain ⟨tk, htk, htkX⟩ := extractScript_taken hde
            have hrest : rest.length ≤ fuel :=
              le_trans (Nat.le_of_lt (extractScript_len hde)) hlen
            have hvar2 : ∀ c, ({ jbAttachPost st ss with
                lineNo := st.lineNo + (1 + (ls'.length - rest.length)) } : PState).current =
                  some c → c.«variables» = [] := by
              intro c hc
              simp only [jbAttachPost, Option.map_eq_some'] at hc
              obtain ⟨c2, hc2, hc3⟩ := hc
              rw [← hc3]
              simpa using hvar c2 hc2
            rcases ih rest _ hrest hvar2 hnd r hr with h | ⟨pfx', sfx', hsplit, hlook⟩
            · exact Or.inl h
            · right
              refine ⟨l :: (tk ++ pfx'), sfx', by rw [htk, hsplit]; simp, fun n => ?_⟩
              rw [hlook n]
              have hrun : jbProcF (l :: (tk ++ pfx')).length st (l :: (tk ++ pfx')) =
                  jbProcF pfx'.length
                    ({ jbAttachPost st ss with
                       lineNo := st.lineNo + (1 + (ls'.length - rest.length)) }) pfx' := by
                simp only [List.length_cons]
                rw [jbProcF]
                rw [if_neg hpre, if_pos hpost, htkX pfx']
                dsimp only
                have harith1 : (tk ++ pfx').length - pfx'.length = tk.length := by
                  simp
                have harith2 : ls'.length - rest.length = tk.length := by
                  rw [htk]; simp
                rw [harith1, harith2]
                exact jbProcF_fuel _ _ _ _ (by simp) le_rfl
              rw [hrun]
          | none =>
            rw [hde] at hr
            rcases ih ls' _ hlen (jbStep_varinv st l hvar) (jbStep_nodup st l hnd) r hr with
              h | ⟨pfx', sfx', hsplit, hlook⟩
            · rw [jbStep_requests] at h
              split at h
              · rcases jbFinalize_mem h with h2 | ⟨c, hc, hv⟩
                · exact Or.inl h2
                · right
                  refine ⟨[], l :: ls', rfl, fun n => ?_⟩
                  rw [hv, hvar c hc, insertAll_nil _ hnd]
                  rfl
              · exact Or.inl h
            · right
              refine ⟨l :: pfx', sfx', by rw [hsplit]; rfl, fun n => ?_⟩
              rw [hlook n]
              have hrun : jbProcF (l :: pfx').length st (l :: pfx') =
                  jbProcF pfx'.length (jbStep st l) pfx' := by
                simp only [List.length_cons]
                rw [jbProcF]
                rw [if_neg hpre, if_pos hpost]
                rw [extractScript_none_take pfx' sfx' (by rw [← hsplit]; exact hde)]
              rw [hrun]
        · rw [if_neg hpost] at hr
          rcases ih ls' _ hlen (jbStep_varinv st l hvar) (jbStep_nodup st l hnd) r hr with
            h | ⟨pfx', sfx', hsplit, hlook⟩
          · rw [jbStep_requests] at h
            split at h
            · rcases jbFinalize_mem h with h2 | ⟨c, hc, hv⟩
              · exact Or.inl h2
              · right
                refine ⟨[], l :: ls', rfl, fun n => ?_⟩
                rw [hv, hvar c hc, insertAll_nil _ hnd]
                rfl
            · exact Or.inl h
          · right
            refine ⟨l :: pfx', sfx', by rw [hsplit]; rfl, fun n => ?_⟩
            rw [hlook n]
            have hrun : jbProcF (l :: pfx').length st (l :: pfx') =
                jbProcF pfx'.length (jbStep st l) pfx' := by
              simp only [List.length_cons]
              rw [jbProcF]
              rw [if_neg hpre, if_neg hpost]
            rw [hrun]



theorem vs_vars_prefix :
    ∀ (ls : List (List Char)) (st : PState),
      ∀ r ∈ vsFinalize (ls.foldl vsStep st),
        r ∈ st.requests ∨
        ∃ pfx sfx, ls = pfx ++ sfx ∧
          ∀ n, lookupA n r.«variables» =
            lookupA n ((pfx.foldl vsStep st).file_variables) := by
  intro ls
  induction ls with
  | nil =>
    intro st r hr
    rcases vsFinalize_mem hr with h | hv
    · exact Or.inl h
    · exact Or.inr ⟨[], [], rfl, fun n => by rw [hv]; try rfl⟩
  | cons l ls ih =>
    intro st r hr
    rw [List.foldl_cons] at hr
    rcases ih (vsStep st l) r hr with h | ⟨pfx', sfx', hsplit, hlook⟩
    · rw [vsStep_requests] at h
      split at h
      · exact Or.inl h
      · split at h
        · rcases vsFinalize_mem h with h2 | hv
          · exact Or.inl h2
          · exact Or.inr ⟨[], l :: ls, rfl, fun n => by rw [hv]; try rfl⟩
        · exact Or.inl h
    · right
      exact ⟨l :: pfx', sfx', by rw [hsplit]; rfl, fun n => by rw [hlook n]; rfl⟩

/-- C1 (amended): in both dialect parsers, an emitted request's `variables`
map coincides, as a lookup table, with the file-level variable table the
parser accumulated over a prefix of the document's lines (the lines processed
before the request was finalized at its terminating separator, or the whole
document for the request finalized at end of input).  Definitions appearing
after that prefix are absent, so a definition reaches exactly the requests
finalized after it — not every request in the document. -/
theorem c1_variables_at_finalization :
    (∀ (content : String) (r : ParsedRequest), r ∈ jbRequests content →
      ∃ pfx sfx, linesOf content = pfx ++ sfx ∧
        ∀ n, lookupA n r.«variables» =
          lookupA n (jbProcF pfx.length initState pfx).file_variables) ∧
    (∀ (content : String) (r : ParsedRequest), r ∈ vsRequests content →
      ∃ pfx sfx, linesOf content = pfx ++ sfx ∧
        ∀ n, lookupA n r.«variables» =
          lookupA n ((pfx.foldl vsStep initState).file_variables)) := by
  constructor
  · intro content r hr
    unfold jbRequests at hr
    rcases jb_vars_prefix (linesOf content).length (linesOf content) initState le_rfl
      (by intro c hc; simp [initState] at hc) (by simp [initState]) r hr with h | h
    · simp [initState] at h
    · exact h
  · intro content r hr
    unfold vsRequests at hr
    rcases vs_vars_prefix (linesOf content) initState r hr with h | h
    · simp [initState] at h
    · exact h

theorem c1_variables_at_finalization_witness :
    ∃ pfx sfx, linesOf "@x = 1\nGET /a" = pfx ++ sfx ∧
      ∀ n, lookupA n ({ method := "GET", url := "/a", line_number := 1, «variables» := [("x", "1")] } : ParsedRequest).«variables» =
        lookupA n (jbProcF pfx.length initState pfx).file_variables :=
  c1_variables_at_finalization.1 "@x = 1\nGET /a" _ (by decide)

end Kvile
